import Mathlib

/-!
Verification of the nuclei-based segmentation correction pipeline
(`plantseg/dataprocessing/functional/advanced_dataprocessing.py`).

A 3-D label volume of shape `(n₁, n₂, n₃)` is embedded as a function from
voxel coordinates to natural-number labels (0 is background).  The numpy
arrays produced by `numba_find_overlaps` are embedded as functions from
indices to counts; the uint16 accumulators of the source are modelled by
reducing every increment modulo 2^16.  Fallible code paths (numpy raising
`ValueError` on an empty `min`/`max`, `IndexError` on `[0]` of an empty
list) are modelled with `Except`.  The external primitives (gaussian
smoothing and seeded watershed, §6 of the spec) feed only the content of
the re-split region; they are abstracted as an oracle parameter `ws`
supplying the local watershed labelling, universally quantified in every
theorem about `split_from_seeds`.
-/

/-- Voxel coordinates of a volume of shape `(n₁, n₂, n₃)`.
The source indexes the three axes as `z, x, y` (see `get_bbox`). -/
abbrev Vox (n₁ n₂ n₃ : ℕ) := Fin n₁ × Fin n₂ × Fin n₃

/-- A label volume: non-negative integer label at every voxel. -/
abbrev VolN (n₁ n₂ n₃ : ℕ) := Vox n₁ n₂ n₃ → ℕ

/-- A boundary-probability volume (float array in the source, embedded over ℚ). -/
abbrev VolQ (n₁ n₂ n₃ : ℕ) := Vox n₁ n₂ n₃ → ℚ

variable {n₁ n₂ n₃ : ℕ}

/-- `arr.max()` of numpy: the maximum label of a volume (0 for an empty volume). -/
def volMax (seg : VolN n₁ n₂ n₃) : ℕ := Finset.univ.sup seg

lemma le_volMax (seg : VolN n₁ n₂ n₃) (v : Vox n₁ n₂ n₃) : seg v ≤ volMax seg :=
  Finset.le_sup (Finset.mem_univ v)

/-- Error kinds raised by the embedded code paths:
`emptyMask` is the `ValueError` raised by `coords.min()` on an empty
coordinate array in `get_bbox` (the spec's `EmptyMaskError`);
`emptyCrop` is the `ValueError` raised by `_boundary_pmap.max()` in
`split_from_seeds` when the bounding-box crop is empty;
`indexErr` is the `IndexError` of `value['over_seg_idx'][0]` on an empty list. -/
inductive PyErr : Type where
  | emptyMask : PyErr
  | emptyCrop : PyErr
  | indexErr : PyErr
deriving DecidableEq

instance {ε α : Type} [DecidableEq ε] [DecidableEq α] : DecidableEq (Except ε α) := fun a b =>
  match a, b with
  | .ok x, .ok y =>
    if h : x = y then isTrue (by rw [h]) else isFalse (fun hc => h (by injection hc))
  | .error e, .error f =>
    if h : e = f then isTrue (by rw [h]) else isFalse (fun hc => h (by injection hc))
  | .ok _, .error _ => isFalse (fun hc => Except.noConfusion hc)
  | .error _, .ok _ => isFalse (fun hc => Except.noConfusion hc)

/-- The set of voxels where a boolean mask is true (`np.nonzero(mask)`). -/
def trueVox (mask : Vox n₁ n₂ n₃ → Bool) : Finset (Vox n₁ n₂ n₃) :=
  Finset.univ.filter (fun v => mask v = true)

/-- Bounding box produced by `get_bbox`: three half-open index ranges
`[z0, z1) × [x0, x1) × [y0, y1)` (the source returns the three slices
together with the three minima; the minima are the `z0, x0, y0` fields). -/
structure Bbox : Type where
  z0 : ℕ
  z1 : ℕ
  x0 : ℕ
  x1 : ℕ
  y0 : ℕ
  y1 : ℕ
deriving DecidableEq

/-- Embedding of `get_bbox(mask, pixel_toll)`.

Source (lines 11-21): `coords = np.nonzero(mask)`;
`z_min, z_max = max(coords[0].min() - pixel_toll, 0), min(coords[0].max() + pixel_toll, max_shape[0])`;
`z_max = z_max if z_max - z_min > 0 else 1`; then the same clipping for the
`x` and `y` axes WITHOUT the extent guard.  `coords[0].min()` raises
`ValueError` when the mask has no true voxel, modelled by `none`.
Truncated ℕ subtraction coincides with `max(· - toll, 0)` of the source. -/
def get_bbox (mask : Vox n₁ n₂ n₃ → Bool) (pixel_toll : ℕ) : Option Bbox :=
  if h : (trueVox mask).Nonempty then
    let zs := (trueVox mask).image (fun v => (v.1 : ℕ))
    let xs := (trueVox mask).image (fun v => (v.2.1 : ℕ))
    let ys := (trueVox mask).image (fun v => (v.2.2 : ℕ))
    let z0 := zs.min' (h.image _) - pixel_toll
    let z1 := min (zs.max' (h.image _) + pixel_toll) n₁
    let x0 := xs.min' (h.image _) - pixel_toll
    let x1 := min (xs.max' (h.image _) + pixel_toll) n₂
    let y0 := ys.min' (h.image _) - pixel_toll
    let y1 := min (ys.max' (h.image _) + pixel_toll) n₃
    some ⟨z0, if z1 - z0 > 0 then z1 else 1, x0, x1, y0, y1⟩
  else none

/-! ## Overlap statistics (`numba_find_overlaps`, lines 34-60)

The source accumulates into `np.uint16` arrays (`.astype(np.uint16)`), so
every increment wraps modulo `2 ^ 16 = 65536`; the embedding applies `% U16`
at each increment, exactly as uint16 addition does.  The arrays are sized
`max + 1`; indices are embedded as total functions on ℕ (entries never
incremented stay 0, and the source never reads outside `max + 1`). -/

/-- The modulus of the uint16 accumulators of `numba_find_overlaps`. -/
def U16 : ℕ := 65536

/-- `arr[k] += 1` on a uint16 numpy array. -/
def bump (f : ℕ → ℕ) (k : ℕ) : ℕ → ℕ :=
  fun i => if i = k then (f k + 1) % U16 else f i

/-- `arr[a, b] += 1` on a uint16 numpy array. -/
def bump2 (f : ℕ → ℕ → ℕ) (a b : ℕ) : ℕ → ℕ → ℕ :=
  fun i j => if i = a ∧ j = b then (f a b + 1) % U16 else f i j

/-- The triple returned by `numba_find_overlaps`:
`cell_counts`, `n_counts`, `overlap_counts`. -/
structure Counts : Type where
  cell : ℕ → ℕ
  nuc : ℕ → ℕ
  inter : ℕ → ℕ → ℕ

/-- All voxels of a volume in the loop order of the source
(`x` outer, then `y`, then `z` innermost). -/
def voxList (n₁ n₂ n₃ : ℕ) : List (Vox n₁ n₂ n₃) :=
  (List.finRange n₁).flatMap fun x =>
    (List.finRange n₂).flatMap fun y =>
      (List.finRange n₃).map fun z => (x, y, z)

/-- One loop-body iteration of `numba_find_overlaps`. -/
def overlapStep (cell_seg n_seg : VolN n₁ n₂ n₃) (acc : Counts) (v : Vox n₁ n₂ n₃) : Counts :=
  let seg_id := cell_seg v
  let n_id := n_seg v
  { cell := if 0 < seg_id then bump acc.cell seg_id else acc.cell
    nuc := if 0 < n_id then bump acc.nuc n_id else acc.nuc
    inter := if 0 < seg_id ∧ 0 < n_id then bump2 acc.inter seg_id n_id else acc.inter }

/-- Embedding of `numba_find_overlaps(cell_seg, n_seg)` (lines 34-60). -/
def numba_find_overlaps (cell_seg n_seg : VolN n₁ n₂ n₃) : Counts :=
  (voxList n₁ n₂ n₃).foldl (overlapStep cell_seg n_seg) ⟨fun _ => 0, fun _ => 0, fun _ _ => 0⟩

/-- The exact number of voxels carrying cell label `i`. -/
def trueCellCount (cs : VolN n₁ n₂ n₃) (i : ℕ) : ℕ :=
  (Finset.univ.filter (fun v => cs v = i)).card

/-- The exact number of voxels carrying nucleus label `j`. -/
def trueNucCount (ns : VolN n₁ n₂ n₃) (j : ℕ) : ℕ :=
  (Finset.univ.filter (fun v => ns v = j)).card

/-- The exact number of voxels where cell label `i` and nucleus label `j` coincide. -/
def trueInterCount (cs ns : VolN n₁ n₂ n₃) (i j : ℕ) : ℕ :=
  (Finset.univ.filter (fun v => cs v = i ∧ ns v = j)).card

/-! ## Quantile filter (`get_quantile_mask`, lines 24-31) -/

/-- Embedding of `np.quantile(l, q)` (method `linear`):  with `s` the sorted
values, `h = q * (len - 1)`, `i = floor h`, `j = ceil h`, the result is
`s[i] + (h - i) * (s[j] - s[i])`.  To keep the definition kernel-computable
the arithmetic is carried out on numerator `q.num * (len - 1)` over
denominator `q.den` and assembled with `mkRat`; for `0 ≤ q ≤ 1` (the only
values numpy accepts without raising) and the ascending sort this is exactly
the linear-interpolation value, since `i * q.den ≤ q.num.toNat * (len - 1)`
and `s[i] ≤ s[j]` make the ℕ subtractions exact. -/
def np_quantile (l : List ℕ) (q : ℚ) : ℚ :=
  let s := l.insertionSort (· ≤ ·)
  let num := q.num.toNat * (l.length - 1)
  let i := num / q.den
  let j := (num + q.den - 1) / q.den
  let si := s.getD i 0
  let sj := s.getD j 0
  mkRat (si * q.den + (num - i * q.den) * (sj - si)) q.den

/-- Embedding of `get_quantile_mask(counts, quantile)` (lines 24-31): true where
the value is strictly above the low quantile and strictly below the high one.
`nIds` is the length of the counts array (`counts.shape[0]`). -/
def get_quantile_mask (nIds : ℕ) (counts : ℕ → ℕ) (quantile : ℚ × ℚ) : ℕ → Bool :=
  let l := (List.range nIds).map counts
  fun k =>
    decide (np_quantile l quantile.1 < (counts k : ℚ)) &&
    decide ((counts k : ℚ) < np_quantile l quantile.2)

/-! ## Assignment analyzers (lines 63-116)

Ratios are float divisions `intersection / count` in the source; they are
embedded exactly over `WithTop ℚ`: a zero denominator yields `⊤`, matching
numpy's `+inf` for a positive numerator over zero (every numerator at a call
site is positive, coming from `np.nonzero`), and `⊤ > threshold` holds just
as `inf > threshold` does in Python. -/

/-- Float division `a / b` of two numpy uint16 scalars. -/
def pyDiv (a b : ℕ) : WithTop ℚ :=
  if b = 0 then (⊤ : WithTop ℚ) else ((mkRat a b : ℚ) : WithTop ℚ)

/-- `n_idx = np.nonzero(intersection_counts[idx])[0]` of `find_potential_under_seg`. -/
def under_n_idx (nNuc : ℕ) (inter : ℕ → ℕ → ℕ) (idx : ℕ) : List ℕ :=
  (List.range nNuc).filter fun j => decide (0 < inter idx j)

/-- `r_intersection` of `find_potential_under_seg`. -/
def under_ratios (nNuc : ℕ) (nc : ℕ → ℕ) (inter : ℕ → ℕ → ℕ) (idx : ℕ) : List (WithTop ℚ) :=
  (under_n_idx nNuc inter idx).map fun j => pyDiv (inter idx j) (nc j)

/-- `under_seg_n_idx` of `find_potential_under_seg`: the nuclei whose ratio
strictly exceeds the threshold and which pass the quantile keep-mask. -/
def under_seg_idx_of (nNuc : ℕ) (nc : ℕ → ℕ) (inter : ℕ → ℕ → ℕ) (threshold : ℚ)
    (quantiles_clip : ℚ × ℚ) (idx : ℕ) : List ℕ :=
  (under_n_idx nNuc inter idx).filter fun j =>
    decide ((threshold : WithTop ℚ) < pyDiv (inter idx j) (nc j)) &&
    get_quantile_mask nNuc nc quantiles_clip j

/-- The per-cell record of `find_potential_under_seg`. -/
structure URec : Type where
  n_idx : List ℕ
  under_seg_idx : List ℕ
  is_under_seg : Bool
  r_intersection : List (WithTop ℚ)
deriving DecidableEq

/-- Embedding of `find_potential_under_seg` (lines 63-89).  `nCell` and `nNuc`
are the lengths of `cell_counts` and `nuclei_counts` (`.shape[0]`); the
`cell_counts` array itself is read only for its length.  The result is the
insertion-ordered dict `cell_assigment`: records are emitted only when at
least two nuclei qualify. -/
def find_potential_under_seg (nuclei_counts cell_counts : ℕ → ℕ) (nCell nNuc : ℕ)
    (intersection_counts : ℕ → ℕ → ℕ) (threshold : ℚ) (quantiles_clip : ℚ × ℚ) :
    List (ℕ × URec) :=
  (List.range nCell).filterMap fun idx =>
    let uIdx := under_seg_idx_of nNuc nuclei_counts intersection_counts threshold quantiles_clip idx
    if 1 < uIdx.length then
      some (idx, ⟨under_n_idx nNuc intersection_counts idx, uIdx, true,
        under_ratios nNuc nuclei_counts intersection_counts idx⟩)
    else none

/-- `c_idx = np.nonzero(intersection_counts[:, idx])[0]` of `find_potential_over_seg`. -/
def over_c_idx (nCell : ℕ) (inter : ℕ → ℕ → ℕ) (idx : ℕ) : List ℕ :=
  (List.range nCell).filter fun i => decide (0 < inter i idx)

/-- `r_intersection` of `find_potential_over_seg`. -/
def over_ratios (nCell : ℕ) (nc : ℕ → ℕ) (inter : ℕ → ℕ → ℕ) (idx : ℕ) : List (WithTop ℚ) :=
  (over_c_idx nCell inter idx).map fun i => pyDiv (inter i idx) (nc idx)

/-- `over_seg_c_idx` of `find_potential_over_seg`: the cells whose share of
nucleus `idx` strictly exceeds the threshold. -/
def over_seg_idx_of (nCell : ℕ) (nc : ℕ → ℕ) (inter : ℕ → ℕ → ℕ) (threshold : ℚ)
    (idx : ℕ) : List ℕ :=
  (over_c_idx nCell inter idx).filter fun i =>
    decide ((threshold : WithTop ℚ) < pyDiv (inter i idx) (nc idx))

/-- The per-nucleus record of `find_potential_over_seg`. -/
structure ORec : Type where
  c_idx : List ℕ
  over_seg_idx : List ℕ
  is_over_seg : Bool
  r_intersection : List (WithTop ℚ)
deriving DecidableEq

/-- Embedding of `find_potential_over_seg` (lines 92-116).  `nNuc` and `nCell`
are the two dimensions of the overlap matrix.  The result is the
insertion-ordered dict `nuclei_assigment`. -/
def find_potential_over_seg (nuclei_counts : ℕ → ℕ) (nNuc nCell : ℕ)
    (intersection_counts : ℕ → ℕ → ℕ) (threshold : ℚ) : List (ℕ × ORec) :=
  (List.range nNuc).filterMap fun idx =>
    let oIdx := over_seg_idx_of nCell nuclei_counts intersection_counts threshold idx
    if 1 < oIdx.length then
      some (idx, ⟨over_c_idx nCell intersection_counts idx, oIdx, true,
        over_ratios nCell nuclei_counts intersection_counts idx⟩)
    else none

/-! ## Local resplit (`split_from_seeds`, lines 119-145)

Steps 4-5 of the source (normalize the cropped probability map, gaussian
smoothing, `watershed`) are the external float primitives of spec §6; they
only determine the content written inside the crop mask and are abstracted
as the oracle `ws`, which receives the probability map, the seed volume and
the bounding box and returns the local watershed labelling at absolute
coordinates.  The `ValueError` raised by `_boundary_pmap.max()` when the
crop is empty is the `emptyCrop` error. -/

/-- Oracle abstracting `gaussian` + `watershed` of `split_from_seeds`. -/
abbrev WsOracle (n₁ n₂ n₃ : ℕ) := VolQ n₁ n₂ n₃ → VolN n₁ n₂ n₃ → Bbox → VolN n₁ n₂ n₃

/-- Membership of a voxel in the three half-open slices of a bounding box. -/
def inBbox (b : Bbox) (v : Vox n₁ n₂ n₃) : Prop :=
  b.z0 ≤ (v.1 : ℕ) ∧ (v.1 : ℕ) < b.z1 ∧
  b.x0 ≤ (v.2.1 : ℕ) ∧ (v.2.1 : ℕ) < b.x1 ∧
  b.y0 ≤ (v.2.2 : ℕ) ∧ (v.2.2 : ℕ) < b.y1

instance (b : Bbox) (v : Vox n₁ n₂ n₃) : Decidable (inBbox b v) := by
  unfold inBbox; infer_instance

/-- Whether all three slices of the box are non-empty (the crop of a volume by
the box contains at least one voxel). -/
def cropNonempty (b : Bbox) : Bool :=
  decide (b.z0 < b.z1 ∧ b.x0 < b.x1 ∧ b.y0 < b.y1)

/-- Embedding of `split_from_seeds(segmentation, boundary_pmap, seeds, all_idx)`
(lines 119-145).  `c_segmentation` is a deep copy of the input; the mask
selects voxels whose label lies in `all_idx`; `get_bbox` is called with the
default `pixel_toll = 0`; inside the box, voxels of the mask are overwritten
with the oracle's local labelling offset by `c_segmentation.max() + 1`. -/
def split_from_seeds (segmentation : VolN n₁ n₂ n₃) (boundary_pmap : VolQ n₁ n₂ n₃)
    (seeds : VolN n₁ n₂ n₃) (all_idx : List ℕ) (ws : WsOracle n₁ n₂ n₃) :
    Except PyErr (VolN n₁ n₂ n₃) :=
  let c_segmentation := segmentation
  let mask : Vox n₁ n₂ n₃ → Bool := fun v => decide (c_segmentation v ∈ all_idx)
  match get_bbox mask 0 with
  | none => .error .emptyMask
  | some bbox =>
    if cropNonempty bbox then
      let local_seg := ws boundary_pmap seeds bbox
      let max_id := volMax c_segmentation
      .ok fun v =>
        if inBbox bbox v ∧ mask v = true then local_seg v + (max_id + 1)
        else c_segmentation v
    else .error .emptyCrop

/-! ## Merge pass (`fix_over_segmentation`, lines 169-183) and
split pass (`fix_under_segmentation`, lines 148-166)

Python dicts preserve insertion order, so the assignment dicts are embedded
as association lists in emission order.  `copy.deepcopy` of an input array
is embedded as the value itself (the embedding is functional); aliasing and
in-place mutation are treated separately by the heap model further below. -/

/-- `nuclei_idx is None or n_idx in nuclei_idx` (and the analogous test of
`fix_under_segmentation`). -/
def idxSelected (restrict : Option (List ℕ)) (k : ℕ) : Bool :=
  match restrict with
  | none => true
  | some l => decide (k ∈ l)

/-- One relabelling statement `_segmentation[segmentation == c_idx] = new_value`
of `fix_over_segmentation`: the equality is tested against `seg0`, the volume
as it stood before the whole pass. -/
def relabelStep (seg0 : VolN n₁ n₂ n₃) (new_value : ℕ) (vol : VolN n₁ n₂ n₃) (c_idx : ℕ) :
    VolN n₁ n₂ n₃ :=
  fun v => if seg0 v = c_idx then new_value else vol v

/-- Embedding of `fix_over_segmentation(segmentation, nuclei_assignments,
nuclei_idx)` (lines 169-183).  For each selected record,
`new_value = value['over_seg_idx'][0]` (an `IndexError` on an empty
qualifying list, modelled as `.error .indexErr`), then every qualifying
cell id is relabelled to `new_value` at all voxels where the ORIGINAL
volume carries that id. -/
def fix_over_segmentation (segmentation : VolN n₁ n₂ n₃)
    (nuclei_assignments : List (ℕ × ORec)) (nuclei_idx : Option (List ℕ)) :
    Except PyErr (VolN n₁ n₂ n₃) :=
  nuclei_assignments.foldlM
    (fun vol p =>
      if idxSelected nuclei_idx p.1 then
        match p.2.over_seg_idx with
        | [] => .error .indexErr
        | new_value :: _ =>
          .ok (p.2.over_seg_idx.foldl (relabelStep segmentation new_value) vol)
      else .ok vol)
    segmentation

/-- The seed volume built by `fix_under_segmentation` for one record:
`_nuclei_seeds[n_idx == nuclei_segmentation] = i + 1` for each enumerated
qualifying nucleus id, over a `np.zeros_like` start. -/
def nucleiSeeds (nuclei_segmentation : VolN n₁ n₂ n₃) (under_idx : List ℕ) : VolN n₁ n₂ n₃ :=
  fun v => under_idx.enum.foldl
    (fun acc p => if nuclei_segmentation v = p.2 then p.1 + 1 else acc) 0

/-- Embedding of `fix_under_segmentation(segmentation, nuclei_segmentation,
boundary_pmap, cell_assignments, cell_idx)` (lines 148-166): for each
selected record the current volume is re-split from the nucleus seeds; an
exception from `split_from_seeds` aborts the loop as in Python. -/
def fix_under_segmentation (segmentation nuclei_segmentation : VolN n₁ n₂ n₃)
    (boundary_pmap : VolQ n₁ n₂ n₃) (cell_assignments : List (ℕ × URec))
    (cell_idx : Option (List ℕ)) (ws : WsOracle n₁ n₂ n₃) :
    Except PyErr (VolN n₁ n₂ n₃) :=
  cell_assignments.foldlM
    (fun vol p =>
      if idxSelected cell_idx p.1 then
        split_from_seeds vol boundary_pmap
          (nucleiSeeds nuclei_segmentation p.2.under_seg_idx) [p.1] ws
      else .ok vol)
    segmentation

/-- Embedding of `fix_over_under_segmentation_from_nuclei(cell_seg, nuclei_seg,
threshold_merge, threshold_split, quantiles_nuclei, boundary)` (lines
186-237): measure overlaps, merge over-segmented cells, re-measure, split
under-segmented cells.  The count arrays have lengths `max + 1` of the
respective volume.  `boundary = None` defaults to `np.ones_like(cell_seg)`. -/
def fix_over_under_segmentation_from_nuclei (cell_seg nuclei_seg : VolN n₁ n₂ n₃)
    (threshold_merge threshold_split : ℚ) (quantiles_nuclei : ℚ × ℚ)
    (boundary : Option (VolQ n₁ n₂ n₃)) (ws : WsOracle n₁ n₂ n₃) :
    Except PyErr (VolN n₁ n₂ n₃) :=
  let st₁ := numba_find_overlaps cell_seg nuclei_seg
  let nuclei_assignments :=
    find_potential_over_seg st₁.nuc (volMax nuclei_seg + 1) (volMax cell_seg + 1)
      st₁.inter threshold_merge
  match fix_over_segmentation cell_seg nuclei_assignments none with
  | .error e => .error e
  | .ok cell_seg₁ =>
    let st₂ := numba_find_overlaps cell_seg₁ nuclei_seg
    let cell_assignments :=
      find_potential_under_seg st₂.nuc st₂.cell (volMax cell_seg₁ + 1)
        (volMax nuclei_seg + 1) st₂.inter threshold_split quantiles_nuclei
    let boundary_pmap := boundary.getD (fun _ => 1)
    fix_under_segmentation cell_seg₁ nuclei_seg boundary_pmap cell_assignments none ws

/-! ## Characterization of the merge pass (claim C1) -/

/-- The label a given ORIGINAL label `l` carries after the merge pass: the
first id of the last selected record whose qualifying set contains `l`,
and `l` itself when no selected record contains it. -/
def mergeTarget (nuclei_assignments : List (ℕ × ORec)) (nuclei_idx : Option (List ℕ))
    (l : ℕ) : ℕ :=
  nuclei_assignments.foldl
    (fun acc p =>
      if idxSelected nuclei_idx p.1 = true ∧ l ∈ p.2.over_seg_idx then
        p.2.over_seg_idx.headD acc
      else acc)
    l

lemma relabel_foldl (seg0 : VolN n₁ n₂ n₃) (nv : ℕ) (ids : List ℕ) (vol : VolN n₁ n₂ n₃)
    (v : Vox n₁ n₂ n₃) :
    (ids.foldl (relabelStep seg0 nv) vol) v = if seg0 v ∈ ids then nv else vol v := by
  induction ids generalizing vol with
  | nil => simp
  | cons c t ih =>
    rw [List.foldl_cons, ih]
    by_cases h1 : seg0 v ∈ t <;> by_cases h2 : seg0 v = c <;>
      simp [h1, h2, relabelStep, List.mem_cons]

lemma fix_over_segmentation_foldlM (seg : VolN n₁ n₂ n₃) (ni : Option (List ℕ)) :
    ∀ (assigns : List (ℕ × ORec)) (vol : VolN n₁ n₂ n₃),
    (∀ p ∈ assigns, idxSelected ni p.1 = true → p.2.over_seg_idx ≠ []) →
    (assigns.foldlM
      (fun vol p =>
        if idxSelected ni p.1 then
          match p.2.over_seg_idx with
          | [] => (.error .indexErr : Except PyErr (VolN n₁ n₂ n₃))
          | new_value :: _ =>
            .ok (p.2.over_seg_idx.foldl (relabelStep seg new_value) vol)
        else .ok vol)
      vol) =
    .ok (fun v => assigns.foldl
      (fun acc p =>
        if idxSelected ni p.1 = true ∧ seg v ∈ p.2.over_seg_idx then
          p.2.over_seg_idx.headD acc
        else acc)
      (vol v)) := by
  intro assigns
  induction assigns with
  | nil => intro vol _; rfl
  | cons p t ih =>
    intro vol hrec
    by_cases hsel : idxSelected ni p.1 = true
    · have hne : p.2.over_seg_idx ≠ [] := hrec p (by simp) hsel
      obtain ⟨nv, rest, hcons⟩ := List.exists_cons_of_ne_nil hne
      rw [List.foldlM_cons]
      have hstep :
          (if idxSelected ni p.1 then
            match p.2.over_seg_idx with
            | [] => (.error .indexErr : Except PyErr (VolN n₁ n₂ n₃))
            | new_value :: _ =>
              .ok (p.2.over_seg_idx.foldl (relabelStep seg new_value) vol)
          else .ok vol) =
          .ok (p.2.over_seg_idx.foldl (relabelStep seg nv) vol) := by
        rw [hsel]; simp only [if_true, hcons]
      rw [hstep]
      show (t.foldlM _ (p.2.over_seg_idx.foldl (relabelStep seg nv) vol)) = _
      rw [ih _ (fun q hq => hrec q (by simp [hq]))]
      refine congrArg Except.ok (funext fun v => ?_)
      rw [relabel_foldl, List.foldl_cons]
      congr 1
      by_cases hm : seg v ∈ p.2.over_seg_idx
      · rw [if_pos hm, if_pos ⟨hsel, hm⟩, hcons]; rfl
      · rw [if_neg hm, if_neg (fun hc => hm hc.2)]
    · rw [List.foldlM_cons]
      have hstep :
          (if idxSelected ni p.1 then
            match p.2.over_seg_idx with
            | [] => (.error .indexErr : Except PyErr (VolN n₁ n₂ n₃))
            | new_value :: _ =>
              .ok (p.2.over_seg_idx.foldl (relabelStep seg new_value) vol)
          else .ok vol) = .ok vol := by
        simp [hsel]
      rw [hstep]
      show (t.foldlM _ vol) = _
      rw [ih _ (fun q hq => hrec q (by simp [hq]))]
      refine congrArg Except.ok (funext fun v => ?_)
      rw [List.foldl_cons]
      simp [hsel]

lemma foldl_merge_const (ni : Option (List ℕ)) (l h : ℕ) :
    ∀ (t : List (ℕ × ORec)) (acc : ℕ), acc = h →
    (∀ r ∈ t, idxSelected ni r.1 = true → l ∈ r.2.over_seg_idx →
      r.2.over_seg_idx.headD 0 = h) →
    t.foldl
      (fun acc p =>
        if idxSelected ni p.1 = true ∧ l ∈ p.2.over_seg_idx then
          p.2.over_seg_idx.headD acc
        else acc)
      acc = h := by
  intro t
  induction t with
  | nil => intro acc hacc _; exact hacc
  | cons r t ih =>
    intro acc hacc hall
    rw [List.foldl_cons]
    refine ih _ ?_ (fun q hq => hall q (by simp [hq]))
    by_cases hc : idxSelected ni r.1 = true ∧ l ∈ r.2.over_seg_idx
    · obtain ⟨a, rest, hcons⟩ := List.exists_cons_of_ne_nil (List.ne_nil_of_mem hc.2)
      have hthis := hall r (by simp) hc.1 hc.2
      rw [hcons] at hthis
      rw [if_pos hc, hcons]
      simpa using hthis
    · simp only [if_neg hc]; exact hacc

lemma foldl_merge_hits (ni : Option (List ℕ)) (l h : ℕ) :
    ∀ (t : List (ℕ × ORec)) (acc : ℕ),
    (∃ r ∈ t, idxSelected ni r.1 = true ∧ l ∈ r.2.over_seg_idx) →
    (∀ r ∈ t, idxSelected ni r.1 = true → l ∈ r.2.over_seg_idx →
      r.2.over_seg_idx.headD 0 = h) →
    t.foldl
      (fun acc p =>
        if idxSelected ni p.1 = true ∧ l ∈ p.2.over_seg_idx then
          p.2.over_seg_idx.headD acc
        else acc)
      acc = h := by
  intro t
  induction t with
  | nil => rintro acc ⟨r, hr, _⟩ _; exact absurd hr (List.not_mem_nil r)
  | cons r t ih =>
    rintro acc ⟨q, hq, hqsel, hqmem⟩ hall
    rw [List.foldl_cons]
    by_cases hc : idxSelected ni r.1 = true ∧ l ∈ r.2.over_seg_idx
    · refine foldl_merge_const ni l h t _ ?_ (fun q hq => hall q (by simp [hq]))
      obtain ⟨a, rest, hcons⟩ := List.exists_cons_of_ne_nil (List.ne_nil_of_mem hc.2)
      have hthis := hall r (by simp) hc.1 hc.2
      rw [hcons] at hthis
      rw [if_pos hc, hcons]
      simpa using hthis
    · rcases List.mem_cons.mp hq with rfl | hqt
      · exact absurd ⟨hqsel, hqmem⟩ hc
      · rw [if_neg hc]
        exact ih _ ⟨q, hqt, hqsel, hqmem⟩ (fun q hq => hall q (by simp [hq]))

/-! ## Concrete scenario for claim C1: a nucleus fully covered by two
disjoint cell labels A = 2 and B = 5, with `threshold_merge = 0.3`. -/

/-- Cell volume `[2, 5, 5, 7]` along the first axis. -/
def segAB : VolN 4 1 1 := fun v => if (v.1 : ℕ) = 0 then 2 else if (v.1 : ℕ) = 3 then 7 else 5

/-- Nucleus volume `[1, 1, 1, 0]`: nucleus 1 is fully covered by cells 2 and 5. -/
def nsAB : VolN 4 1 1 := fun v => if (v.1 : ℕ) ≤ 2 then 1 else 0

/-- Overlap statistics of the scenario. -/
def stAB : Counts := numba_find_overlaps segAB nsAB

/-- The over-segmentation records of the scenario at `threshold_merge = 3/10`. -/
def recsAB : List (ℕ × ORec) :=
  find_potential_over_seg stAB.nuc (volMax nsAB + 1) (volMax segAB + 1) stAB.inter (mkRat 3 10)

/-- The merged scenario volume: every voxel formerly labelled 5 now carries 2. -/
def resAB : VolN 4 1 1 := fun v => if (v.1 : ℕ) = 3 then 7 else 2

/-- C1 (confirmed).  The merge pass `fix_over_segmentation` relabels by the
ORIGINAL volume only: the result at a voxel is `mergeTarget` of its pre-pass
label, i.e. the first id (`over_seg_idx[0]`) of the last selected record
whose qualifying set contains that label — so each per-voxel equality test
reads the volume as it stood before the whole pass, and when a qualifying
id belongs to a single record it is relabelled to that record's first id
everywhere in the volume.  In particular, for a nucleus fully covered by
the disjoint cell labels 2 and 5 with `threshold_merge = 0.3`, one merge
pass turns every voxel formerly labelled 5 into 2 and no voxel anywhere
retains label 5. -/
theorem c1_merge_pass_uses_pre_pass_volume :
    (∀ (n₁ n₂ n₃ : ℕ) (seg : VolN n₁ n₂ n₃) (assigns : List (ℕ × ORec))
      (ni : Option (List ℕ)),
      (∀ p ∈ assigns, idxSelected ni p.1 = true → p.2.over_seg_idx ≠ []) →
      fix_over_segmentation seg assigns ni = .ok (fun v => mergeTarget assigns ni (seg v)) ∧
      (∀ p ∈ assigns, idxSelected ni p.1 = true → ∀ l ∈ p.2.over_seg_idx,
        (∀ q ∈ assigns, idxSelected ni q.1 = true → l ∈ q.2.over_seg_idx → q = p) →
        mergeTarget assigns ni l = p.2.over_seg_idx.headD 0)) ∧
    (recsAB.map Prod.fst = [1] ∧
     recsAB.map (fun p => p.2.over_seg_idx) = [[2, 5]] ∧
     fix_over_segmentation segAB recsAB none = .ok resAB ∧
     (∀ v, segAB v = 5 → resAB v = 2) ∧
     (∀ v, resAB v ≠ 5)) := by
  constructor
  · intro n₁ n₂ n₃ seg assigns ni hrec
    constructor
    · exact fix_over_segmentation_foldlM seg ni assigns seg hrec
    · intro p hp hsel l hl huniq
      exact foldl_merge_hits ni l _ assigns l ⟨p, hp, hsel, hl⟩
        (fun r hr hrs hrm => by rw [huniq r hr hrs hrm])
  · exact ⟨by decide, by decide, by decide, by decide, by decide⟩

/-- Witness for C1: the general statement applied to the concrete scenario,
with the nonempty-qualifying-list hypothesis discharged by evaluation. -/
theorem c1_merge_pass_uses_pre_pass_volume_witness :
    (∀ p ∈ recsAB, idxSelected none p.1 = true → p.2.over_seg_idx ≠ []) ∧
    fix_over_segmentation segAB recsAB none =
      .ok (fun v => mergeTarget recsAB none (segAB v)) :=
  ⟨by decide,
   (c1_merge_pass_uses_pre_pass_volume.1 4 1 1 segAB recsAB none (by decide)).1⟩

/-! ## Frame property of the local resplit (claim C2) -/

/-- C2 (confirmed).  When `split_from_seeds` returns a volume, every voxel
whose current label is not in the target id set keeps its previous label
(this covers voxels outside the bounding box and voxels inside the box but
outside the crop mask), and every voxel is either unchanged or carries a
label strictly greater than the pre-split global maximum label. -/
theorem c2_split_frame_and_fresh_labels (n₁ n₂ n₃ : ℕ) (seg : VolN n₁ n₂ n₃)
    (pmap : VolQ n₁ n₂ n₃) (seeds : VolN n₁ n₂ n₃) (all_idx : List ℕ)
    (ws : WsOracle n₁ n₂ n₃) (res : VolN n₁ n₂ n₃)
    (h : split_from_seeds seg pmap seeds all_idx ws = .ok res) :
    (∀ v, seg v ∉ all_idx → res v = seg v) ∧
    (∀ v, res v = seg v ∨ volMax seg < res v) := by
  simp only [split_from_seeds] at h
  split at h
  · exact absurd h (by simp)
  · rename_i bbox hgb
    split at h
    · have hres := Except.ok.inj h
      constructor
      · intro v hv
        rw [← hres]
        dsimp only
        rw [if_neg (fun hc => hv (by simpa using hc.2))]
      · intro v
        rw [← hres]
        dsimp only
        by_cases hc : inBbox bbox v ∧ (decide (seg v ∈ all_idx)) = true
        · refine Or.inr ?_
          rw [if_pos hc]
          omega
        · exact Or.inl (if_neg hc)
    · exact absurd h (by simp)

/-- A 2×2×2 volume entirely labelled 5, for the C2 and C8 witnesses. -/
def cs2 : VolN 2 2 2 := fun _ => 5

/-- The constant-zero watershed oracle used by the concrete witnesses. -/
def ws2 : WsOracle 2 2 2 := fun _ _ _ _ => 0

/-- Result of re-splitting `cs2` on id set `[5]` with the zero oracle: the
box degenerates to the single voxel `(0,0,0)` (the `max+toll` upper bounds
are exclusive with `pixel_toll = 0`), which receives the fresh label 6. -/
def res2 : VolN 2 2 2 :=
  fun v => if (v.1 : ℕ) = 0 ∧ (v.2.1 : ℕ) = 0 ∧ (v.2.2 : ℕ) = 0 then 6 else 5

/-- Witness for C2: a successful concrete invocation of `split_from_seeds`,
the `.ok` hypothesis discharged by evaluation. -/
theorem c2_split_frame_and_fresh_labels_witness :
    (split_from_seeds cs2 (fun _ => 1) (fun _ => 0) [5] ws2 = .ok res2) ∧
    ((∀ v, cs2 v ∉ [5] → res2 v = cs2 v) ∧
     (∀ v, res2 v = cs2 v ∨ volMax cs2 < res2 v)) :=
  ⟨by decide,
   c2_split_frame_and_fresh_labels 2 2 2 cs2 (fun _ => 1) (fun _ => 0) [5] ws2 res2 (by decide)⟩

/-! ## Failure behaviour of `get_bbox` and `split_from_seeds` (claim C8) -/

lemma get_bbox_eq_none_iff (mask : Vox n₁ n₂ n₃ → Bool) (toll : ℕ) :
    get_bbox mask toll = none ↔ ∀ v, mask v = false := by
  constructor
  · intro h v
    by_contra hv
    rw [Bool.not_eq_false] at hv
    have hne : (trueVox mask).Nonempty := ⟨v, by simp [trueVox, hv]⟩
    rw [get_bbox, dif_pos hne] at h
    exact Option.noConfusion h
  · intro hall
    have hne : ¬ (trueVox mask).Nonempty := by
      rintro ⟨v, hv⟩
      simp only [trueVox, Finset.mem_filter] at hv
      rw [hall v] at hv
      exact Bool.noConfusion hv.2
    rw [get_bbox, dif_neg hne]

lemma split_from_seeds_emptyMask_iff (seg : VolN n₁ n₂ n₃) (pmap : VolQ n₁ n₂ n₃)
    (seeds : VolN n₁ n₂ n₃) (all_idx : List ℕ) (ws : WsOracle n₁ n₂ n₃) :
    split_from_seeds seg pmap seeds all_idx ws = .error PyErr.emptyMask ↔
    ∀ v, seg v ∉ all_idx := by
  constructor
  · intro h
    simp only [split_from_seeds] at h
    split at h
    · rename_i hgb
      intro v
      have := (get_bbox_eq_none_iff _ 0).mp hgb v
      simpa using this
    · split at h
      · exact absurd h (by simp)
      · have hcm : PyErr.emptyCrop = PyErr.emptyMask := by injection h
        exact absurd hcm (by simp)
  · intro hall
    have hnone : get_bbox (fun v => decide (seg v ∈ all_idx)) 0 = none :=
      (get_bbox_eq_none_iff _ 0).mpr (fun v => by simp [hall v])
    simp only [split_from_seeds, hnone]

/-- C8 (confirmed).  `get_bbox` fails (the `EmptyMaskError` of the spec,
modelled by `none`) exactly when the mask has no true voxel, and
`split_from_seeds` fails with that same propagated error exactly when the
target id set has vanished from the volume. -/
theorem c8_empty_mask_failure :
    (∀ (n₁ n₂ n₃ : ℕ) (mask : Vox n₁ n₂ n₃ → Bool) (toll : ℕ),
      get_bbox mask toll = none ↔ ∀ v, mask v = false) ∧
    (∀ (n₁ n₂ n₃ : ℕ) (seg : VolN n₁ n₂ n₃) (pmap : VolQ n₁ n₂ n₃)
      (seeds : VolN n₁ n₂ n₃) (all_idx : List ℕ) (ws : WsOracle n₁ n₂ n₃),
      split_from_seeds seg pmap seeds all_idx ws = .error PyErr.emptyMask ↔
      ∀ v, seg v ∉ all_idx) :=
  ⟨fun _ _ _ mask toll => get_bbox_eq_none_iff mask toll,
   fun _ _ _ seg pmap seeds all_idx ws =>
     split_from_seeds_emptyMask_iff seg pmap seeds all_idx ws⟩

/-! ## Bounding box extent (claim C5)

The source guards the extent of the Z axis only, and that guard sets the
upper bound to the CONSTANT 1 (`z_max = z_max if z_max - z_min > 0 else 1`),
not to `z_min + 1`; the X and Y axes get plain clipping with no guard. -/

/-- C5 counterexample.  For the single-voxel mask of a 1×1×1 volume with
tolerance 0 — an instance of the claim's "in particular" case — the box does
NOT have its upper bound raised to at least `lower + 1` on every axis: the
returned box is `⟨0, 1, 0, 0, 0, 0⟩`, with extent 0 on the x and y axes. -/
theorem c5_counterexample :
    ¬ (∀ b : Bbox, get_bbox (fun _ : Vox 1 1 1 => true) 0 = some b →
        b.z0 + 1 ≤ b.z1 ∧ b.x0 + 1 ≤ b.x1 ∧ b.y0 + 1 ≤ b.y1) := by decide

/-- The single voxel `z = 5` of an 8×1×1 volume. -/
def maskZ5 : Vox 8 1 1 → Bool := fun v => decide ((v.1 : ℕ) = 5)

set_option maxHeartbeats 4000000 in
/-- C5 (amended).  For every non-empty mask and tolerance, `get_bbox` returns
the box whose x and y ranges are `[min - toll, min(max + toll, size))` with
NO extent floor (the extent can be 0), and whose z range gets the upper
bound replaced by the constant 1 — not `lower + 1` — whenever the clipped
range has zero extent; so the box is guaranteed non-empty on z only when
`z0 = 0`.  In particular a single-voxel mask in a volume that is 1 voxel
wide on every axis yields extent 1 on the z axis but extent 0 on x and y
(tolerance 0), and a single-voxel mask at `z = 5` yields the empty z range
`[5, 1)`. -/
theorem c5_bbox_clipping_amended :
    (∀ (n₁ n₂ n₃ : ℕ) (mask : Vox n₁ n₂ n₃ → Bool) (toll : ℕ),
      (trueVox mask).Nonempty →
      ∃ zmin zmax xmin xmax ymin ymax : ℕ,
        (∃ v ∈ trueVox mask, (v.1 : ℕ) = zmin) ∧
        (∀ v ∈ trueVox mask, zmin ≤ (v.1 : ℕ)) ∧
        (∃ v ∈ trueVox mask, (v.1 : ℕ) = zmax) ∧
        (∀ v ∈ trueVox mask, (v.1 : ℕ) ≤ zmax) ∧
        (∃ v ∈ trueVox mask, (v.2.1 : ℕ) = xmin) ∧
        (∀ v ∈ trueVox mask, xmin ≤ (v.2.1 : ℕ)) ∧
        (∃ v ∈ trueVox mask, (v.2.1 : ℕ) = xmax) ∧
        (∀ v ∈ trueVox mask, (v.2.1 : ℕ) ≤ xmax) ∧
        (∃ v ∈ trueVox mask, (v.2.2 : ℕ) = ymin) ∧
        (∀ v ∈ trueVox mask, ymin ≤ (v.2.2 : ℕ)) ∧
        (∃ v ∈ trueVox mask, (v.2.2 : ℕ) = ymax) ∧
        (∀ v ∈ trueVox mask, (v.2.2 : ℕ) ≤ ymax) ∧
        get_bbox mask toll = some
          ⟨zmin - toll,
           if min (zmax + toll) n₁ - (zmin - toll) > 0 then min (zmax + toll) n₁ else 1,
           xmin - toll, min (xmax + toll) n₂,
           ymin - toll, min (ymax + toll) n₃⟩) ∧
    get_bbox maskZ5 0 = some ⟨5, 1, 0, 0, 0, 0⟩ ∧
    get_bbox (fun _ : Vox 1 1 1 => true) 0 = some ⟨0, 1, 0, 0, 0, 0⟩ := by
  refine ⟨?_, by decide, by decide⟩
  intro n₁ n₂ n₃ mask toll h
  have hz := h.image (fun v => (v.1 : ℕ))
  have hx := h.image (fun v => (v.2.1 : ℕ))
  have hy := h.image (fun v => (v.2.2 : ℕ))
  obtain ⟨vz1, hvz1, hvz1e⟩ := Finset.mem_image.mp (Finset.min'_mem _ hz)
  obtain ⟨vz2, hvz2, hvz2e⟩ := Finset.mem_image.mp (Finset.max'_mem _ hz)
  obtain ⟨vx1, hvx1, hvx1e⟩ := Finset.mem_image.mp (Finset.min'_mem _ hx)
  obtain ⟨vx2, hvx2, hvx2e⟩ := Finset.mem_image.mp (Finset.max'_mem _ hx)
  obtain ⟨vy1, hvy1, hvy1e⟩ := Finset.mem_image.mp (Finset.min'_mem _ hy)
  obtain ⟨vy2, hvy2, hvy2e⟩ := Finset.mem_image.mp (Finset.max'_mem _ hy)
  refine ⟨_, _, _, _, _, _,
    ⟨vz1, hvz1, hvz1e⟩,
    (fun v hv => Finset.min'_le ((trueVox mask).image fun u => (u.1 : ℕ)) _
      (Finset.mem_image_of_mem _ hv)),
    ⟨vz2, hvz2, hvz2e⟩,
    (fun v hv => Finset.le_max' ((trueVox mask).image fun u => (u.1 : ℕ)) _
      (Finset.mem_image_of_mem _ hv)),
    ⟨vx1, hvx1, hvx1e⟩,
    (fun v hv => Finset.min'_le ((trueVox mask).image fun u => (u.2.1 : ℕ)) _
      (Finset.mem_image_of_mem _ hv)),
    ⟨vx2, hvx2, hvx2e⟩,
    (fun v hv => Finset.le_max' ((trueVox mask).image fun u => (u.2.1 : ℕ)) _
      (Finset.mem_image_of_mem _ hv)),
    ⟨vy1, hvy1, hvy1e⟩,
    (fun v hv => Finset.min'_le ((trueVox mask).image fun u => (u.2.2 : ℕ)) _
      (Finset.mem_image_of_mem _ hv)),
    ⟨vy2, hvy2, hvy2e⟩,
    (fun v hv => Finset.le_max' ((trueVox mask).image fun u => (u.2.2 : ℕ)) _
      (Finset.mem_image_of_mem _ hv)),
    ?_⟩
  rw [get_bbox, dif_pos h]

theorem c5_bbox_clipping_amended_witness :
    (trueVox (fun _ : Vox 1 1 1 => true)).Nonempty ∧
    (∃ zmin zmax xmin xmax ymin ymax : ℕ,
      (∃ v ∈ trueVox (fun _ : Vox 1 1 1 => true), (v.1 : ℕ) = zmin) ∧
      (∀ v ∈ trueVox (fun _ : Vox 1 1 1 => true), zmin ≤ (v.1 : ℕ)) ∧
      (∃ v ∈ trueVox (fun _ : Vox 1 1 1 => true), (v.1 : ℕ) = zmax) ∧
      (∀ v ∈ trueVox (fun _ : Vox 1 1 1 => true), (v.1 : ℕ) ≤ zmax) ∧
      (∃ v ∈ trueVox (fun _ : Vox 1 1 1 => true), (v.2.1 : ℕ) = xmin) ∧
      (∀ v ∈ trueVox (fun _ : Vox 1 1 1 => true), xmin ≤ (v.2.1 : ℕ)) ∧
      (∃ v ∈ trueVox (fun _ : Vox 1 1 1 => true), (v.2.1 : ℕ) = xmax) ∧
      (∀ v ∈ trueVox (fun _ : Vox 1 1 1 => true), (v.2.1 : ℕ) ≤ xmax) ∧
      (∃ v ∈ trueVox (fun _ : Vox 1 1 1 => true), (v.2.2 : ℕ) = ymin) ∧
      (∀ v ∈ trueVox (fun _ : Vox 1 1 1 => true), ymin ≤ (v.2.2 : ℕ)) ∧
      (∃ v ∈ trueVox (fun _ : Vox 1 1 1 => true), (v.2.2 : ℕ) = ymax) ∧
      (∀ v ∈ trueVox (fun _ : Vox 1 1 1 => true), (v.2.2 : ℕ) ≤ ymax) ∧
      get_bbox (fun _ : Vox 1 1 1 => true) 0 = some
        ⟨zmin - 0,
         if min (zmax + 0) 1 - (zmin - 0) > 0 then min (zmax + 0) 1 else 1,
         xmin - 0, min (xmax + 0) 1,
         ymin - 0, min (ymax + 0) 1⟩) :=
  ⟨by decide, c5_bbox_clipping_amended.1 1 1 1 (fun _ => true) 0 (by decide)⟩

/-! ## The under-segmentation scenario of claim C4

`nuclei_counts = [0, 100, 100]`, overlap row of cell 1 `= [0, 90, 10]`,
`threshold_split = 1/2`, quantile bounds `(0, 1)`.  The quantile mask uses
STRICT comparisons, so a count equal to the maximum (the 1.0-quantile) is
excluded; nucleus 1 therefore does NOT qualify even though its ratio 0.9
exceeds the threshold. -/

/-- `nuclei_counts = [0, 100, 100]`. -/
def ncC4 : ℕ → ℕ := fun j => if j = 1 ∨ j = 2 then 100 else 0

/-- `cell_counts = [0, 100]` (read only for its length 2). -/
def ccC4 : ℕ → ℕ := fun i => if i = 1 then 100 else 0

/-- Overlap matrix with row 1 `= [0, 90, 10]`. -/
def interC4 : ℕ → ℕ → ℕ := fun i j =>
  if i = 1 then (if j = 1 then 90 else if j = 2 then 10 else 0) else 0

/-- C4 counterexample.  On the claim's explicit input, nucleus 1's overlap
ratio 90/100 does exceed the threshold 1/2, yet the pass does NOT judge
nucleus 1 as qualifying: the qualifying set computed for cell 1 is empty,
because the quantile keep-mask with bounds (0, 1) rejects count 100. -/
theorem c4_counterexample :
    ((mkRat 1 2 : ℚ) : WithTop ℚ) < pyDiv (interC4 1 1) (ncC4 1) ∧
    ¬ (1 ∈ under_seg_idx_of 3 ncC4 interC4 (mkRat 1 2) (0, 1) 1) := by decide

/-- C4 (amended).  On the input `nuclei_counts = [0,100,100]`, overlap row
for cell 1 `= [0,90,10]`, `threshold_split = 1/2`, quantile bounds `(0,1)`:
the overlapping nuclei of cell 1 are `[1, 2]` with ratios `[9/10, 1/10]`;
nucleus 1 beats the threshold and nucleus 2 does not, but the quantile
keep-mask computed over `[0,100,100]` with strict comparisons is false at
both nuclei (their count 100 equals the 1.0-quantile, and `100 < 100`
fails), so NEITHER nucleus qualifies, the qualifying set of cell 1 is
empty, and no under-segmentation record is emitted for cell 1 (cell 1 is
not reported under-segmented). -/
theorem c4_under_seg_scenario_amended :
    under_n_idx 3 interC4 1 = [1, 2] ∧
    under_ratios 3 ncC4 interC4 1 = [pyDiv 90 100, pyDiv 10 100] ∧
    pyDiv 90 100 = ((mkRat 9 10 : ℚ) : WithTop ℚ) ∧
    (((mkRat 1 2 : ℚ) : WithTop ℚ) < pyDiv 90 100) ∧
    ¬ (((mkRat 1 2 : ℚ) : WithTop ℚ) < pyDiv 10 100) ∧
    get_quantile_mask 3 ncC4 (0, 1) 1 = false ∧
    get_quantile_mask 3 ncC4 (0, 1) 2 = false ∧
    under_seg_idx_of 3 ncC4 interC4 (mkRat 1 2) (0, 1) 1 = [] ∧
    find_potential_under_seg ncC4 ccC4 2 3 interC4 (mkRat 1 2) (0, 1) = [] := by decide

/-! ## Zero-count ids in the analyzers (claim C6)

The source has NO explicit zero-count guard: a zero-count id is skipped
only because, in statistics actually produced by a (non-wrapping) overlap
count, a zero-count id has an all-zero overlap row/column, so `np.nonzero`
yields nothing for it.  On general statistics inputs (reachable through the
uint16 wraparound of `numba_find_overlaps`) the zero denominator IS divided
by, giving `inf` ratios that can emit a record. -/

/-- A statistics input with `nuclei_counts = [0, 0]` everywhere. -/
def nc6 : ℕ → ℕ := fun _ => 0

/-- An overlap matrix giving nucleus 1 (count 0) overlap 3 with cells 1, 2. -/
def inter6 : ℕ → ℕ → ℕ := fun i j => if j = 1 ∧ (i = 1 ∨ i = 2) then 3 else 0

/-- C6 counterexample.  On this statistics input, nucleus id 1 has voxel
count 0 and yet is NOT skipped: its zero denominator is divided (both
ratios are `⊤`, numpy's `inf`) and it yields an over-segmentation record. -/
theorem c6_counterexample :
    nc6 1 = 0 ∧
    over_ratios 3 nc6 inter6 1 = [⊤, ⊤] ∧
    (find_potential_over_seg nc6 2 3 inter6 (mkRat 3 10)).map Prod.fst = [1] := by decide

/-- C6 (amended).  For statistics inputs in which every zero-count id has an
all-zero overlap row/column (as the overlap counter produces whenever no
count wraps modulo 2^16), both analysis passes skip each zero-count id:
its count is never used as a denominator (the nonzero-overlap index lists
naming it are empty), it never keys a record, and it never appears in any
emitted qualifying set. -/
theorem c6_zero_count_ids_skipped_amended
    (nNuc nCell : ℕ) (nc cc : ℕ → ℕ) (inter : ℕ → ℕ → ℕ)
    (thrM thrS : ℚ) (clip : ℚ × ℚ)
    (hn : ∀ i < nCell, ∀ j < nNuc, nc j = 0 → inter i j = 0)
    (hc : ∀ i < nCell, ∀ j < nNuc, cc i = 0 → inter i j = 0) :
    ∀ k,
      (k < nNuc → nc k = 0 →
        over_c_idx nCell inter k = [] ∧
        over_ratios nCell nc inter k = [] ∧
        (∀ p ∈ find_potential_over_seg nc nNuc nCell inter thrM, p.1 ≠ k) ∧
        (∀ idx < nCell, k ∉ under_n_idx nNuc inter idx) ∧
        (∀ p ∈ find_potential_under_seg nc cc nCell nNuc inter thrS clip,
          k ∉ p.2.under_seg_idx)) ∧
      (k < nCell → cc k = 0 →
        under_n_idx nNuc inter k = [] ∧
        under_ratios nNuc nc inter k = [] ∧
        (∀ p ∈ find_potential_under_seg nc cc nCell nNuc inter thrS clip, p.1 ≠ k)) := by
  intro k
  constructor
  · intro hk hnc
    have hcol : over_c_idx nCell inter k = [] := by
      rw [over_c_idx, List.filter_eq_nil_iff]
      intro i hi
      rw [hn i (List.mem_range.mp hi) k hk hnc]
      simp
    have hnin : ∀ idx < nCell, k ∉ under_n_idx nNuc inter idx := by
      intro idx hidx hmem
      rw [under_n_idx, List.mem_filter] at hmem
      rw [hn idx hidx k hk hnc] at hmem
      simpa using hmem.2
    refine ⟨hcol, by rw [over_ratios, hcol]; rfl, ?_, hnin, ?_⟩
    · intro p hp
      rw [find_potential_over_seg, List.mem_filterMap] at hp
      obtain ⟨idx, hidx, heq⟩ := hp
      dsimp only at heq
      by_cases hlen : 1 < (over_seg_idx_of nCell nc inter thrM idx).length
      · rw [if_pos hlen] at heq
        have hp1 : p.1 = idx := by rw [← Option.some.inj heq]
        rw [hp1]
        intro hik
        rw [hik] at hlen
        rw [over_seg_idx_of, hcol] at hlen
        simp at hlen
      · rw [if_neg hlen] at heq
        exact Option.noConfusion heq
    · intro p hp hkmem
      rw [find_potential_under_seg, List.mem_filterMap] at hp
      obtain ⟨idx, hidx, heq⟩ := hp
      dsimp only at heq
      by_cases hlen : 1 < (under_seg_idx_of nNuc nc inter thrS clip idx).length
      · rw [if_pos hlen] at heq
        have hp2 : p.2.under_seg_idx = under_seg_idx_of nNuc nc inter thrS clip idx := by
          rw [← Option.some.inj heq]
        rw [hp2, under_seg_idx_of, List.mem_filter] at hkmem
        exact hnin idx (List.mem_range.mp hidx) hkmem.1
      · rw [if_neg hlen] at heq
        exact Option.noConfusion heq
  · intro hk hcc
    have hrow : under_n_idx nNuc inter k = [] := by
      rw [under_n_idx, List.filter_eq_nil_iff]
      intro j hj
      rw [hc k hk j (List.mem_range.mp hj) hcc]
      simp
    refine ⟨hrow, by rw [under_ratios, hrow]; rfl, ?_⟩
    intro p hp
    rw [find_potential_under_seg, List.mem_filterMap] at hp
    obtain ⟨idx, hidx, heq⟩ := hp
    dsimp only at heq
    by_cases hlen : 1 < (under_seg_idx_of nNuc nc inter thrS clip idx).length
    · rw [if_pos hlen] at heq
      have hp1 : p.1 = idx := by rw [← Option.some.inj heq]
      rw [hp1]
      intro hik
      rw [hik] at hlen
      rw [under_seg_idx_of, hrow] at hlen
      simp at hlen
    · rw [if_neg hlen] at heq
      exact Option.noConfusion heq

/-- Consistent statistics for the C6 witness: `nuclei_counts = [0, 2, 0]`,
`cell_counts = [0, 3]`, single overlap `inter 1 1 = 1`. -/
def ncW6 : ℕ → ℕ := fun j => if j = 1 then 2 else 0

/-- Cell counts for the C6 witness. -/
def ccW6 : ℕ → ℕ := fun i => if i = 1 then 3 else 0

/-- Overlap matrix for the C6 witness. -/
def interW6 : ℕ → ℕ → ℕ := fun i j => if i = 1 ∧ j = 1 then 1 else 0

/-- Witness for C6: the amended statement applied to concrete consistent
statistics at the zero-count nucleus id 2, hypotheses discharged by
evaluation. -/
theorem c6_zero_count_ids_skipped_amended_witness :
    (∀ i < 2, ∀ j < 3, ncW6 j = 0 → interW6 i j = 0) ∧
    ((2 < 3 → ncW6 2 = 0 →
      over_c_idx 2 interW6 2 = [] ∧
      over_ratios 2 ncW6 interW6 2 = [] ∧
      (∀ p ∈ find_potential_over_seg ncW6 3 2 interW6 (mkRat 3 10), p.1 ≠ 2) ∧
      (∀ idx < 2, 2 ∉ under_n_idx 3 interW6 idx) ∧
      (∀ p ∈ find_potential_under_seg ncW6 ccW6 2 3 interW6 (mkRat 1 2) (0, 1),
        2 ∉ p.2.under_seg_idx)) ∧
     (2 < 2 → ccW6 2 = 0 →
      under_n_idx 3 interW6 2 = [] ∧
      under_ratios 3 ncW6 interW6 2 = [] ∧
      (∀ p ∈ find_potential_under_seg ncW6 ccW6 2 3 interW6 (mkRat 1 2) (0, 1), p.1 ≠ 2))) :=
  ⟨by decide,
   c6_zero_count_ids_skipped_amended 3 2 ncW6 ccW6 interW6 (mkRat 3 10) (mkRat 1 2) (0, 1)
     (by decide) (by decide) 2⟩

/-! ## Idempotence of the pipeline on consistent input (claim C7) -/

/-- C7 (confirmed).  If the cell segmentation is already consistent with the
nuclei reference — no nucleus has two qualifying overlapping cells at the
merge threshold, and no cell has two qualifying overlapping nuclei at the
split threshold — then the full correction pipeline emits no record,
performs no merge and no split, and returns its input volume unchanged;
hence a second run on the pipeline's own output is the identity. -/
theorem c7_pipeline_identity_on_consistent_input
    (n₁ n₂ n₃ : ℕ) (cs ns : VolN n₁ n₂ n₃) (thrM thrS : ℚ) (clip : ℚ × ℚ)
    (boundary : Option (VolQ n₁ n₂ n₃)) (ws : WsOracle n₁ n₂ n₃)
    (h1 : ∀ j ∈ List.range (volMax ns + 1),
      (over_seg_idx_of (volMax cs + 1) (numba_find_overlaps cs ns).nuc
        (numba_find_overlaps cs ns).inter thrM j).length ≤ 1)
    (h2 : ∀ i ∈ List.range (volMax cs + 1),
      (under_seg_idx_of (volMax ns + 1) (numba_find_overlaps cs ns).nuc
        (numba_find_overlaps cs ns).inter thrS clip i).length ≤ 1) :
    fix_over_under_segmentation_from_nuclei cs ns thrM thrS clip boundary ws = .ok cs := by
  have hover : find_potential_over_seg (numba_find_overlaps cs ns).nuc
      (volMax ns + 1) (volMax cs + 1) (numba_find_overlaps cs ns).inter thrM = [] := by
    rw [find_potential_over_seg, List.filterMap_eq_nil_iff]
    intro idx hidx
    dsimp only
    rw [if_neg ?hne]
    case hne => have := h1 idx hidx; omega
  have hunder : find_potential_under_seg (numba_find_overlaps cs ns).nuc
      (numba_find_overlaps cs ns).cell (volMax cs + 1) (volMax ns + 1)
      (numba_find_overlaps cs ns).inter thrS clip = [] := by
    rw [find_potential_under_seg, List.filterMap_eq_nil_iff]
    intro idx hidx
    dsimp only
    rw [if_neg ?hne2]
    case hne2 => have := h2 idx hidx; omega
  simp only [fix_over_under_segmentation_from_nuclei]
  rw [hover]
  show fix_under_segmentation cs ns (boundary.getD (fun _ => 1))
    (find_potential_under_seg (numba_find_overlaps cs ns).nuc
      (numba_find_overlaps cs ns).cell (volMax cs + 1) (volMax ns + 1)
      (numba_find_overlaps cs ns).inter thrS clip) none ws = .ok cs
  rw [hunder]
  rfl

/-- The cell volume `[1, 1]` for the C7 witness. -/
def csW7 : VolN 2 1 1 := fun _ => 1

/-- The nucleus volume `[1, 0]` for the C7 witness: the single nucleus is
covered by the single cell, nothing qualifies twice. -/
def nsW7 : VolN 2 1 1 := fun v => if (v.1 : ℕ) = 0 then 1 else 0

/-- The constant-zero watershed oracle for the C7 witness. -/
def wsW7 : WsOracle 2 1 1 := fun _ _ _ _ => 0

/-- Witness for C7: the pipeline applied to a concrete consistent volume
with the default thresholds of the source, hypotheses discharged by
evaluation. -/
theorem c7_pipeline_identity_on_consistent_input_witness :
    (∀ j ∈ List.range (volMax nsW7 + 1),
      (over_seg_idx_of (volMax csW7 + 1) (numba_find_overlaps csW7 nsW7).nuc
        (numba_find_overlaps csW7 nsW7).inter (mkRat 33 100) j).length ≤ 1) ∧
    fix_over_under_segmentation_from_nuclei csW7 nsW7 (mkRat 33 100) (mkRat 66 100)
      (mkRat 3 10, mkRat 99 100) none wsW7 = .ok csW7 :=
  ⟨by decide,
   c7_pipeline_identity_on_consistent_input 2 1 1 csW7 nsW7 (mkRat 33 100) (mkRat 66 100)
     (mkRat 3 10, mkRat 99 100) none wsW7 (by decide) (by decide)⟩

/-! ## The uint16 accumulators count voxels modulo 2^16 (claims C3 and C10) -/

lemma U16_pos : 0 < U16 := by norm_num [U16]

lemma foldl_overlap_cell (cs ns : VolN n₁ n₂ n₃) (i : ℕ) (hi : 0 < i) :
    ∀ (l : List (Vox n₁ n₂ n₃)) (acc : Counts), acc.cell i < U16 →
    ((l.foldl (overlapStep cs ns) acc).cell i) =
      (acc.cell i + l.countP (fun v => decide (cs v = i))) % U16 := by
  intro l
  induction l with
  | nil => intro acc hacc; simp [Nat.mod_eq_of_lt hacc]
  | cons v l ih =>
    intro acc hacc
    rw [List.foldl_cons, List.countP_cons]
    by_cases hv : cs v = i
    · have h0 : 0 < cs v := hv ▸ hi
      have hstep : (overlapStep cs ns acc v).cell i = (acc.cell i + 1) % U16 := by
        simp [overlapStep, bump, hv, hi]
      rw [ih (overlapStep cs ns acc v) (by rw [hstep]; exact Nat.mod_lt _ U16_pos)]
      rw [hstep, Nat.mod_add_mod]
      have hone : (if (decide (cs v = i)) = true then 1 else 0) = 1 := by simp [hv]
      rw [hone]
      congr 1
      omega
    · have hstep : (overlapStep cs ns acc v).cell i = acc.cell i := by
        by_cases h0 : 0 < cs v
        · simp [overlapStep, bump, h0, Ne.symm hv]
        · simp [overlapStep, h0]
      rw [ih (overlapStep cs ns acc v) (by rw [hstep]; exact hacc)]
      rw [hstep]
      simp [hv]

lemma foldl_overlap_nuc (cs ns : VolN n₁ n₂ n₃) (j : ℕ) (hj : 0 < j) :
    ∀ (l : List (Vox n₁ n₂ n₃)) (acc : Counts), acc.nuc j < U16 →
    ((l.foldl (overlapStep cs ns) acc).nuc j) =
      (acc.nuc j + l.countP (fun v => decide (ns v = j))) % U16 := by
  intro l
  induction l with
  | nil => intro acc hacc; simp [Nat.mod_eq_of_lt hacc]
  | cons v l ih =>
    intro acc hacc
    rw [List.foldl_cons, List.countP_cons]
    by_cases hv : ns v = j
    · have h0 : 0 < ns v := hv ▸ hj
      have hstep : (overlapStep cs ns acc v).nuc j = (acc.nuc j + 1) % U16 := by
        simp [overlapStep, bump, hv, hj]
      rw [ih (overlapStep cs ns acc v) (by rw [hstep]; exact Nat.mod_lt _ U16_pos)]
      rw [hstep, Nat.mod_add_mod]
      have hone : (if (decide (ns v = j)) = true then 1 else 0) = 1 := by simp [hv]
      rw [hone]
      congr 1
      omega
    · have hstep : (overlapStep cs ns acc v).nuc j = acc.nuc j := by
        by_cases h0 : 0 < ns v
        · simp [overlapStep, bump, h0, Ne.symm hv]
        · simp [overlapStep, h0]
      rw [ih (overlapStep cs ns acc v) (by rw [hstep]; exact hacc)]
      rw [hstep]
      simp [hv]

lemma foldl_overlap_inter (cs ns : VolN n₁ n₂ n₃) (i j : ℕ) (hi : 0 < i) (hj : 0 < j) :
    ∀ (l : List (Vox n₁ n₂ n₃)) (acc : Counts), acc.inter i j < U16 →
    ((l.foldl (overlapStep cs ns) acc).inter i j) =
      (acc.inter i j + l.countP (fun v => decide (cs v = i ∧ ns v = j))) % U16 := by
  intro l
  induction l with
  | nil => intro acc hacc; simp [Nat.mod_eq_of_lt hacc]
  | cons v l ih =>
    intro acc hacc
    rw [List.foldl_cons, List.countP_cons]
    by_cases hv : cs v = i ∧ ns v = j
    · have h0 : 0 < cs v ∧ 0 < ns v := ⟨hv.1 ▸ hi, hv.2 ▸ hj⟩
      have hstep : (overlapStep cs ns acc v).inter i j = (acc.inter i j + 1) % U16 := by
        simp [overlapStep, bump2, hv.1, hv.2, hi, hj]
      rw [ih (overlapStep cs ns acc v) (by rw [hstep]; exact Nat.mod_lt _ U16_pos)]
      rw [hstep, Nat.mod_add_mod]
      have hone : (if (decide (cs v = i ∧ ns v = j)) = true then 1 else 0) = 1 := by simp [hv]
      rw [hone]
      congr 1
      omega
    · have hstep : (overlapStep cs ns acc v).inter i j = acc.inter i j := by
        by_cases h0 : 0 < cs v ∧ 0 < ns v
        · have hne : ¬ (i = cs v ∧ j = ns v) := by
            intro hc
            exact hv ⟨hc.1.symm, hc.2.symm⟩
          simp [overlapStep, bump2, h0, hne]
        · simp [overlapStep, h0]
      rw [ih (overlapStep cs ns acc v) (by rw [hstep]; exact hacc)]
      rw [hstep]
      simp [hv]

lemma foldl_overlap_inter_zero_right (cs ns : VolN n₁ n₂ n₃) (i : ℕ) :
    ∀ (l : List (Vox n₁ n₂ n₃)) (acc : Counts), acc.inter i 0 = 0 →
    ((l.foldl (overlapStep cs ns) acc).inter i 0) = 0 := by
  intro l
  induction l with
  | nil => intro acc hacc; exact hacc
  | cons v l ih =>
    intro acc hacc
    rw [List.foldl_cons]
    refine ih _ ?_
    by_cases h0 : 0 < cs v ∧ 0 < ns v
    · have : ¬ (i = cs v ∧ 0 = ns v) := fun hc => by omega
      simp [overlapStep, bump2, h0, this, hacc]
    · simp [overlapStep, h0, hacc]

lemma countP_eq_sum_map {α : Type} (p : α → Bool) :
    ∀ l : List α, l.countP p = (l.map (fun a => if p a = true then 1 else 0)).sum := by
  intro l
  induction l with
  | nil => rfl
  | cons a l ih =>
    rw [List.countP_cons, List.map_cons, List.sum_cons, ih]
    omega

lemma countP_finRange {n : ℕ} (p : Fin n → Bool) :
    (List.finRange n).countP p = ∑ i : Fin n, if p i = true then 1 else 0 := by
  rw [Fin.sum_univ_def, countP_eq_sum_map]

lemma countP_voxList (p : Vox n₁ n₂ n₃ → Bool) :
    (voxList n₁ n₂ n₃).countP p = (trueVox p).card := by
  rw [trueVox, Finset.card_filter, Fintype.sum_prod_type, voxList, List.countP_flatMap]
  rw [Fin.sum_univ_def]
  congr 1
  refine List.map_congr_left (fun x _ => ?_)
  rw [Function.comp_apply, List.countP_flatMap, Fintype.sum_prod_type, Fin.sum_univ_def]
  congr 1
  refine List.map_congr_left (fun y _ => ?_)
  rw [Function.comp_apply, List.countP_map, countP_finRange]
  rfl

lemma numba_cell_mod (cs ns : VolN n₁ n₂ n₃) (i : ℕ) (hi : 0 < i) :
    (numba_find_overlaps cs ns).cell i = trueCellCount cs i % U16 := by
  rw [numba_find_overlaps,
    foldl_overlap_cell cs ns i hi (voxList n₁ n₂ n₃) _ (by simpa using U16_pos),
    countP_voxList]
  simp only [Nat.zero_add]
  rw [trueCellCount, trueVox]
  congr 1
  exact congrArg Finset.card (Finset.filter_congr (fun v _ => by simp))

lemma numba_nuc_mod (cs ns : VolN n₁ n₂ n₃) (j : ℕ) (hj : 0 < j) :
    (numba_find_overlaps cs ns).nuc j = trueNucCount ns j % U16 := by
  rw [numba_find_overlaps,
    foldl_overlap_nuc cs ns j hj (voxList n₁ n₂ n₃) _ (by simpa using U16_pos),
    countP_voxList]
  simp only [Nat.zero_add]
  rw [trueNucCount, trueVox]
  congr 1
  exact congrArg Finset.card (Finset.filter_congr (fun v _ => by simp))

lemma numba_inter_mod (cs ns : VolN n₁ n₂ n₃) (i j : ℕ) (hi : 0 < i) (hj : 0 < j) :
    (numba_find_overlaps cs ns).inter i j = trueInterCount cs ns i j % U16 := by
  rw [numba_find_overlaps,
    foldl_overlap_inter cs ns i j hi hj (voxList n₁ n₂ n₃) _ (by simpa using U16_pos),
    countP_voxList]
  simp only [Nat.zero_add]
  rw [trueInterCount, trueVox]
  congr 1
  exact congrArg Finset.card (Finset.filter_congr (fun v _ => by simp))

lemma numba_inter_zero_right (cs ns : VolN n₁ n₂ n₃) (i : ℕ) :
    (numba_find_overlaps cs ns).inter i 0 = 0 :=
  foldl_overlap_inter_zero_right cs ns i (voxList n₁ n₂ n₃) _ rfl

/-! ## A 2 × 256 × 128 volume whose single cell label occupies 2^16 voxels -/

/-- Cell label 1 everywhere: 65536 voxels of label 1. -/
def bigCS : VolN 2 256 128 := fun _ => 1

/-- Nucleus 1 on the first half (32768 voxels), nucleus 2 on the second. -/
def bigNS : VolN 2 256 128 := fun v => if v.1 = (0 : Fin 2) then 1 else 2

lemma bigCS_trueCell : trueCellCount bigCS 1 = 65536 := by
  rw [trueCellCount]
  have huniv : (Finset.univ.filter fun v : Vox 2 256 128 => bigCS v = 1) = Finset.univ :=
    Finset.filter_true_of_mem (fun v _ => rfl)
  rw [huniv, Finset.card_univ, Fintype.card_prod, Fintype.card_prod,
    Fintype.card_fin, Fintype.card_fin, Fintype.card_fin]

lemma big_card_fst (a : Fin 2) :
    (Finset.univ.filter fun v : Vox 2 256 128 => v.1 = a).card = 32768 := by
  rw [Finset.card_filter, Fintype.sum_prod_type]
  have hinner : ∀ x : Fin 2,
      (∑ _yz : Fin 256 × Fin 128, if x = a then 1 else 0) = if x = a then 32768 else 0 := by
    intro x
    by_cases hx : x = a
    · simp only [if_pos hx]
      rw [← Finset.card_eq_sum_ones, Finset.card_univ, Fintype.card_prod,
        Fintype.card_fin, Fintype.card_fin]
    · simp only [if_neg hx]
      exact Finset.sum_const_zero
  calc (∑ x : Fin 2, ∑ yz : Fin 256 × Fin 128, if (x, yz).1 = a then 1 else 0)
      = ∑ x : Fin 2, if x = a then 32768 else 0 := by
        refine Finset.sum_congr rfl (fun x _ => hinner x)
    _ = 32768 := by rw [Finset.sum_ite_eq' Finset.univ a (fun _ => 32768)]; simp

lemma bigInter11 : trueInterCount bigCS bigNS 1 1 = 32768 := by
  rw [trueInterCount]
  have hpred : ∀ v : Vox 2 256 128, (bigCS v = 1 ∧ bigNS v = 1) ↔ v.1 = (0 : Fin 2) := by
    intro v
    constructor
    · rintro ⟨-, h2⟩
      by_contra hne
      simp [bigNS, hne] at h2
    · intro h1
      exact ⟨rfl, by simp [bigNS, h1]⟩
  rw [Finset.filter_congr (fun v _ => hpred v)]
  exact big_card_fst 0

lemma bigInter12 : trueInterCount bigCS bigNS 1 2 = 32768 := by
  rw [trueInterCount]
  have hpred : ∀ v : Vox 2 256 128, (bigCS v = 1 ∧ bigNS v = 2) ↔ v.1 = (1 : Fin 2) := by
    intro v
    have hv2 := v.1.isLt
    constructor
    · rintro ⟨-, h2⟩
      by_cases hz : v.1 = (0 : Fin 2)
      · simp [bigNS, hz] at h2
      · rw [Fin.ext_iff]
        rw [Fin.ext_iff] at hz
        omega
    · intro h1
      have hz : ¬ v.1 = (0 : Fin 2) := by
        rw [h1]; decide
      exact ⟨rfl, by simp [bigNS, hz]⟩
  rw [Finset.filter_congr (fun v _ => hpred v)]
  exact big_card_fst 1

lemma bigNS_volMax : volMax bigNS = 2 := by
  apply le_antisymm
  · apply Finset.sup_le
    intro v _
    rw [bigNS]
    split <;> omega
  · have h2 : bigNS (1, 0, 0) = 2 := by decide
    calc (2 : ℕ) = bigNS (1, 0, 0) := h2.symm
      _ ≤ volMax bigNS := le_volMax _ _

lemma big_cell_stored : (numba_find_overlaps bigCS bigNS).cell 1 = 0 := by
  rw [numba_cell_mod _ _ 1 (by norm_num), bigCS_trueCell]
  norm_num [U16]

lemma big_inter11_stored : (numba_find_overlaps bigCS bigNS).inter 1 1 = 32768 := by
  rw [numba_inter_mod _ _ 1 1 (by norm_num) (by norm_num), bigInter11]
  norm_num [U16]

lemma big_inter12_stored : (numba_find_overlaps bigCS bigNS).inter 1 2 = 32768 := by
  rw [numba_inter_mod _ _ 1 2 (by norm_num) (by norm_num), bigInter12]
  norm_num [U16]

lemma sum_range_three (f : ℕ → ℕ) (h0 : f 0 = 0) (h1 : f 1 = 32768) (h2 : f 2 = 32768) :
    (∑ j ∈ Finset.range 3, f j) = 65536 := by
  rw [Finset.sum_range_succ, Finset.sum_range_succ, Finset.sum_range_succ,
    Finset.sum_range_zero, h0, h1, h2]

/-- C3 (code_bug).  The claimed invariant `sum_j overlap[i][j] ≤ cell_counts[i]`
FAILS on the code: on a 2×256×128 volume whose single cell label 1 covers all
2^16 voxels, half overlapping nucleus 1 and half nucleus 2, the uint16
accumulator wraps `cell_counts[1]` to 0 while the two overlap entries stay
32768 each, so the row sum 65536 exceeds the stored cell count 0. -/
theorem c3_overlap_invariant_violated_by_uint16 :
    (numba_find_overlaps bigCS bigNS).cell 1 = 0 ∧
    (∑ j ∈ Finset.range (volMax bigNS + 1), (numba_find_overlaps bigCS bigNS).inter 1 j)
      = 65536 ∧
    ¬ ((∑ j ∈ Finset.range (volMax bigNS + 1), (numba_find_overlaps bigCS bigNS).inter 1 j)
        ≤ (numba_find_overlaps bigCS bigNS).cell 1) := by
  have hsum : (∑ j ∈ Finset.range (volMax bigNS + 1),
      (numba_find_overlaps bigCS bigNS).inter 1 j) = 65536 := by
    rw [bigNS_volMax]
    exact sum_range_three _ (numba_inter_zero_right bigCS bigNS 1)
      big_inter11_stored big_inter12_stored
  refine ⟨big_cell_stored, hsum, ?_⟩
  rw [hsum, big_cell_stored]
  omega

/-- C10 (confirmed).  The overlap counter accumulates every count in uint16:
each reported count equals the TRUE voxel count modulo `2^16 = 65536`, and
whenever a label or an overlap region occupies at least 2^16 voxels, the
reported count differs from the true one. -/
theorem c10_uint16_counts_wrap_mod_65536 (n₁ n₂ n₃ : ℕ) (cs ns : VolN n₁ n₂ n₃)
    (i j : ℕ) (hi : 0 < i) (hj : 0 < j) :
    U16 = 2 ^ 16 ∧
    (numba_find_overlaps cs ns).cell i = trueCellCount cs i % U16 ∧
    (numba_find_overlaps cs ns).nuc j = trueNucCount ns j % U16 ∧
    (numba_find_overlaps cs ns).inter i j = trueInterCount cs ns i j % U16 ∧
    (U16 ≤ trueCellCount cs i →
      (numba_find_overlaps cs ns).cell i ≠ trueCellCount cs i) ∧
    (U16 ≤ trueNucCount ns j →
      (numba_find_overlaps cs ns).nuc j ≠ trueNucCount ns j) ∧
    (U16 ≤ trueInterCount cs ns i j →
      (numba_find_overlaps cs ns).inter i j ≠ trueInterCount cs ns i j) := by
  refine ⟨by norm_num [U16], numba_cell_mod cs ns i hi, numba_nuc_mod cs ns j hj,
    numba_inter_mod cs ns i j hi hj, ?_, ?_, ?_⟩
  · intro hge
    rw [numba_cell_mod cs ns i hi]
    have := Nat.mod_lt (trueCellCount cs i) U16_pos
    omega
  · intro hge
    rw [numba_nuc_mod cs ns j hj]
    have := Nat.mod_lt (trueNucCount ns j) U16_pos
    omega
  · intro hge
    rw [numba_inter_mod cs ns i j hi hj]
    have := Nat.mod_lt (trueInterCount cs ns i j) U16_pos
    omega

/-- Witness for C10: the statement applied to the 2^16-voxel cell label of
`bigCS`, whose reported count 0 differs from its true count 65536. -/
theorem c10_uint16_counts_wrap_mod_65536_witness :
    (0 < 1) ∧ U16 ≤ trueCellCount bigCS 1 ∧
    ((numba_find_overlaps bigCS bigNS).cell 1 = trueCellCount bigCS 1 % U16 ∧
     (numba_find_overlaps bigCS bigNS).cell 1 ≠ trueCellCount bigCS 1) :=
  have hge : U16 ≤ trueCellCount bigCS 1 := by rw [bigCS_trueCell]; norm_num [U16]
  ⟨by norm_num, hge,
   ⟨(c10_uint16_counts_wrap_mod_65536 2 256 128 bigCS bigNS 1 1 (by norm_num)
      (by norm_num)).2.1,
    (c10_uint16_counts_wrap_mod_65536 2 256 128 bigCS bigNS 1 1 (by norm_num)
      (by norm_num)).2.2.2.2.1 hge⟩⟩

/-! ## Heap model of the mutating pipeline (claim C9)

Claim C9 is about aliasing: the Python functions receive references to the
caller's numpy arrays and mutate in place.  To make that expressible, the
pipeline is transcribed a second time over an explicit heap of volume
references: `copy.deepcopy` and `np.zeros_like`/`np.ones_like` allocate a
fresh reference, every subscript assignment (`arr[mask] = v`) is a write to
the reference it targets, and plain reads use the current heap.  The
boundary map is stored as an integer volume here because its values feed
only the abstract watershed oracle.  The claim is then the statement that
the pipeline's final heap agrees with the initial heap on every
previously-allocated reference — in particular on the caller's cell and
nuclei volumes. -/

/-- A heap of numpy volumes: contents of every reference, plus the next
fresh reference. -/
structure PyHeap (n₁ n₂ n₃ : ℕ) : Type where
  mem : ℕ → VolN n₁ n₂ n₃
  nextRef : ℕ

/-- Allocate a fresh volume (`np.zeros_like`, `np.ones_like`, the array
returned by `watershed`, ...). -/
def halloc (st : PyHeap n₁ n₂ n₃) (v : VolN n₁ n₂ n₃) : PyHeap n₁ n₂ n₃ × ℕ :=
  ({ mem := fun r => if r = st.nextRef then v else st.mem r, nextRef := st.nextRef + 1 },
   st.nextRef)

/-- `copy.deepcopy` of the volume held by a reference. -/
def hcopy (st : PyHeap n₁ n₂ n₃) (r : ℕ) : PyHeap n₁ n₂ n₃ × ℕ :=
  halloc st (st.mem r)

/-- An in-place subscript assignment to the volume held by reference `r`. -/
def hwrite (st : PyHeap n₁ n₂ n₃) (r : ℕ) (f : VolN n₁ n₂ n₃ → VolN n₁ n₂ n₃) :
    PyHeap n₁ n₂ n₃ :=
  { mem := fun q => if q = r then f (st.mem r) else st.mem q, nextRef := st.nextRef }

/-- Heap-level watershed oracle (the boundary-map argument is the integer
volume stored on the heap). -/
abbrev WsOracleH (n₁ n₂ n₃ : ℕ) :=
  VolN n₁ n₂ n₃ → VolN n₁ n₂ n₃ → Bbox → VolN n₁ n₂ n₃

/-- Heap transcription of `split_from_seeds` (lines 119-145):
`c_segmentation = copy.deepcopy(segmentation)` allocates; the final
`c_segmentation[bbox][_mask] = local_seg[_mask]` writes through the slice
view into the fresh copy only. -/
def split_from_seeds_heap (st : PyHeap n₁ n₂ n₃) (segRef pmapRef seedsRef : ℕ)
    (all_idx : List ℕ) (ws : WsOracleH n₁ n₂ n₃) : PyHeap n₁ n₂ n₃ × Except PyErr ℕ :=
  let st₁ := (hcopy st segRef).1
  let c := (hcopy st segRef).2
  let mask : Vox n₁ n₂ n₃ → Bool := fun v => decide (st₁.mem c v ∈ all_idx)
  match get_bbox mask 0 with
  | none => (st₁, .error .emptyMask)
  | some bbox =>
    if cropNonempty bbox then
      let local_seg := ws (st₁.mem pmapRef) (st₁.mem seedsRef) bbox
      let max_id := volMax (st₁.mem c)
      (hwrite st₁ c (fun cur => fun v =>
          if inBbox bbox v ∧ cur v ∈ all_idx then local_seg v + (max_id + 1) else cur v),
       .ok c)
    else (st₁, .error .emptyCrop)

/-- Heap transcription of `fix_over_segmentation` (lines 169-183): one
deep copy, then each `_segmentation[segmentation == c_idx] = new_value`
writes the copy while READING the caller's original reference. -/
def fix_over_segmentation_heap (st : PyHeap n₁ n₂ n₃) (segRef : ℕ)
    (nuclei_assignments : List (ℕ × ORec)) (nuclei_idx : Option (List ℕ)) :
    PyHeap n₁ n₂ n₃ × Except PyErr ℕ :=
  let st₁ := (hcopy st segRef).1
  let s := (hcopy st segRef).2
  nuclei_assignments.foldl
    (fun acc p =>
      match acc.2 with
      | .error _ => acc
      | .ok _ =>
        if idxSelected nuclei_idx p.1 then
          match p.2.over_seg_idx with
          | [] => (acc.1, .error .indexErr)
          | new_value :: _ =>
            (p.2.over_seg_idx.foldl
              (fun st c_idx => hwrite st s (fun cur => fun v =>
                if st.mem segRef v = c_idx then new_value else cur v))
              acc.1,
             .ok s)
        else acc)
    (st₁, .ok s)

/-- Heap transcription of the per-record seed construction of
`fix_under_segmentation`: `np.zeros_like` allocates, each
`_nuclei_seeds[n_idx == nuclei_segmentation] = i + 1` writes the fresh
seeds volume reading the nuclei reference. -/
def build_seeds_heap (st : PyHeap n₁ n₂ n₃) (seedsRef nucRef : ℕ) (under_idx : List ℕ) :
    PyHeap n₁ n₂ n₃ :=
  under_idx.enum.foldl
    (fun st q => hwrite st seedsRef (fun curSeeds => fun v =>
      if st.mem nucRef v = q.2 then q.1 + 1 else curSeeds v))
    st

/-- Heap transcription of `fix_under_segmentation` (lines 148-166): one deep
copy, then per record a fresh zeroed seeds volume is written and
`_segmentation` is rebound to the fresh result of `split_from_seeds`. -/
def fix_under_segmentation_heap (st : PyHeap n₁ n₂ n₃) (segRef nucRef pmapRef : ℕ)
    (cell_assignments : List (ℕ × URec)) (cell_idx : Option (List ℕ))
    (ws : WsOracleH n₁ n₂ n₃) : PyHeap n₁ n₂ n₃ × Except PyErr ℕ :=
  let st₁ := (hcopy st segRef).1
  let s := (hcopy st segRef).2
  cell_assignments.foldl
    (fun acc p =>
      match acc.2 with
      | .error _ => acc
      | .ok cur =>
        if idxSelected cell_idx p.1 then
          let st₂ := (halloc acc.1 (fun _ => 0)).1
          let seedsRef := (halloc acc.1 (fun _ => 0)).2
          let st₃ := build_seeds_heap st₂ seedsRef nucRef p.2.under_seg_idx
          split_from_seeds_heap st₃ cur pmapRef seedsRef [p.1] ws
        else acc)
    (st₁, .ok s)

/-- Heap transcription of `fix_over_under_segmentation_from_nuclei` (lines
186-237).  The statistics passes only read; `boundary = none` allocates
`np.ones_like(cell_seg)`. -/
def fix_over_under_segmentation_from_nuclei_heap (st : PyHeap n₁ n₂ n₃)
    (cellRef nucRef : ℕ) (threshold_merge threshold_split : ℚ)
    (quantiles_nuclei : ℚ × ℚ) (boundary : Option ℕ) (ws : WsOracleH n₁ n₂ n₃) :
    PyHeap n₁ n₂ n₃ × Except PyErr ℕ :=
  let st₁ := numba_find_overlaps (st.mem cellRef) (st.mem nucRef)
  let nuclei_assignments :=
    find_potential_over_seg st₁.nuc (volMax (st.mem nucRef) + 1)
      (volMax (st.mem cellRef) + 1) st₁.inter threshold_merge
  match fix_over_segmentation_heap st cellRef nuclei_assignments none with
  | (st', .error e) => (st', .error e)
  | (st', .ok ref₁) =>
    let st₂ := numba_find_overlaps (st'.mem ref₁) (st'.mem nucRef)
    let cell_assignments :=
      find_potential_under_seg st₂.nuc st₂.cell (volMax (st'.mem ref₁) + 1)
        (volMax (st'.mem nucRef) + 1) st₂.inter threshold_split quantiles_nuclei
    let stp := match boundary with
      | none => (halloc st' (fun _ => 1)).1
      | some _ => st'
    let pmapRef := match boundary with
      | none => (halloc st' (fun _ => 1)).2
      | some r => r
    fix_under_segmentation_heap stp ref₁ nucRef pmapRef cell_assignments none ws

/-- The heap agrees with the initial memory `m₀` on every reference below
`N`, and all fresh references are at `N` or above. -/
def HeapFrame (N : ℕ) (m₀ : ℕ → VolN n₁ n₂ n₃) (st : PyHeap n₁ n₂ n₃) : Prop :=
  N ≤ st.nextRef ∧ ∀ r < N, st.mem r = m₀ r

lemma halloc_frame (st : PyHeap n₁ n₂ n₃) (v : VolN n₁ n₂ n₃) (N : ℕ)
    (m₀ : ℕ → VolN n₁ n₂ n₃) (h : HeapFrame N m₀ st) :
    HeapFrame N m₀ (halloc st v).1 ∧ N ≤ (halloc st v).2 := by
  obtain ⟨hle, hmem⟩ := h
  refine ⟨⟨by simp only [halloc]; omega, fun r hr => ?_⟩, by simp only [halloc]; exact hle⟩
  simp only [halloc]
  rw [if_neg (by omega)]
  exact hmem r hr

lemma hcopy_frame (st : PyHeap n₁ n₂ n₃) (r N : ℕ) (m₀ : ℕ → VolN n₁ n₂ n₃)
    (h : HeapFrame N m₀ st) :
    HeapFrame N m₀ (hcopy st r).1 ∧ N ≤ (hcopy st r).2 :=
  halloc_frame st (st.mem r) N m₀ h

lemma hwrite_frame (st : PyHeap n₁ n₂ n₃) (r : ℕ) (f : VolN n₁ n₂ n₃ → VolN n₁ n₂ n₃)
    (N : ℕ) (m₀ : ℕ → VolN n₁ n₂ n₃) (h : HeapFrame N m₀ st) (hr : N ≤ r) :
    HeapFrame N m₀ (hwrite st r f) := by
  obtain ⟨hle, hmem⟩ := h
  refine ⟨hle, fun q hq => ?_⟩
  simp only [hwrite]
  rw [if_neg (by omega)]
  exact hmem q hq

lemma foldl_heap_frame {α : Type} (g : PyHeap n₁ n₂ n₃ → α → PyHeap n₁ n₂ n₃)
    (N : ℕ) (m₀ : ℕ → VolN n₁ n₂ n₃)
    (hg : ∀ st a, HeapFrame N m₀ st → HeapFrame N m₀ (g st a)) :
    ∀ (l : List α) (st : PyHeap n₁ n₂ n₃), HeapFrame N m₀ st →
    HeapFrame N m₀ (l.foldl g st) := by
  intro l
  induction l with
  | nil => intro st h; exact h
  | cons a t ih => intro st h; rw [List.foldl_cons]; exact ih _ (hg st a h)

lemma foldl_heap_pair_frame {α : Type}
    (g : (PyHeap n₁ n₂ n₃ × Except PyErr ℕ) → α → (PyHeap n₁ n₂ n₃ × Except PyErr ℕ))
    (N : ℕ) (m₀ : ℕ → VolN n₁ n₂ n₃)
    (hg : ∀ acc a, HeapFrame N m₀ acc.1 → HeapFrame N m₀ (g acc a).1) :
    ∀ (l : List α) (acc : PyHeap n₁ n₂ n₃ × Except PyErr ℕ), HeapFrame N m₀ acc.1 →
    HeapFrame N m₀ ((l.foldl g acc).1) := by
  intro l
  induction l with
  | nil => intro acc h; exact h
  | cons a t ih => intro acc h; rw [List.foldl_cons]; exact ih _ (hg acc a h)

lemma split_from_seeds_heap_frame (st : PyHeap n₁ n₂ n₃) (segRef pmapRef seedsRef : ℕ)
    (all_idx : List ℕ) (ws : WsOracleH n₁ n₂ n₃) (N : ℕ) (m₀ : ℕ → VolN n₁ n₂ n₃)
    (h : HeapFrame N m₀ st) :
    HeapFrame N m₀ (split_from_seeds_heap st segRef pmapRef seedsRef all_idx ws).1 := by
  have h1 := hcopy_frame st segRef N m₀ h
  simp only [split_from_seeds_heap]
  split
  · exact h1.1
  · split
    · exact hwrite_frame _ _ _ N m₀ h1.1 h1.2
    · exact h1.1

lemma build_seeds_heap_frame (st : PyHeap n₁ n₂ n₃) (seedsRef nucRef : ℕ)
    (under_idx : List ℕ) (N : ℕ) (m₀ : ℕ → VolN n₁ n₂ n₃)
    (h : HeapFrame N m₀ st) (hs : N ≤ seedsRef) :
    HeapFrame N m₀ (build_seeds_heap st seedsRef nucRef under_idx) :=
  foldl_heap_frame _ N m₀
    (fun st' q h' => hwrite_frame st' seedsRef _ N m₀ h' hs) under_idx.enum st h

lemma fix_over_segmentation_heap_frame (st : PyHeap n₁ n₂ n₃) (segRef : ℕ)
    (assigns : List (ℕ × ORec)) (ni : Option (List ℕ)) (N : ℕ)
    (m₀ : ℕ → VolN n₁ n₂ n₃) (h : HeapFrame N m₀ st) :
    HeapFrame N m₀ (fix_over_segmentation_heap st segRef assigns ni).1 := by
  have h1 := hcopy_frame st segRef N m₀ h
  simp only [fix_over_segmentation_heap]
  refine foldl_heap_pair_frame _ N m₀ ?_ assigns _ h1.1
  intro acc p hacc
  dsimp only
  split
  · exact hacc
  · split
    · split
      · exact hacc
      · exact foldl_heap_frame _ N m₀
          (fun st' c h' => hwrite_frame st' _ _ N m₀ h' h1.2) _ _ hacc
    · exact hacc

lemma fix_under_segmentation_heap_frame (st : PyHeap n₁ n₂ n₃) (segRef nucRef pmapRef : ℕ)
    (assigns : List (ℕ × URec)) (ci : Option (List ℕ)) (ws : WsOracleH n₁ n₂ n₃)
    (N : ℕ) (m₀ : ℕ → VolN n₁ n₂ n₃) (h : HeapFrame N m₀ st) :
    HeapFrame N m₀ (fix_under_segmentation_heap st segRef nucRef pmapRef assigns ci ws).1 := by
  have h1 := hcopy_frame st segRef N m₀ h
  simp only [fix_under_segmentation_heap]
  refine foldl_heap_pair_frame _ N m₀ ?_ assigns _ h1.1
  intro acc p hacc
  dsimp only
  split
  · exact hacc
  · split
    · have h2 := halloc_frame acc.1 (fun _ => 0) N m₀ hacc
      exact split_from_seeds_heap_frame _ _ _ _ _ _ N m₀
        (build_seeds_heap_frame _ _ _ _ N m₀ h2.1 h2.2)
    · exact hacc

lemma pipeline_heap_frame (st : PyHeap n₁ n₂ n₃) (cellRef nucRef : ℕ)
    (thrM thrS : ℚ) (clip : ℚ × ℚ) (boundary : Option ℕ) (ws : WsOracleH n₁ n₂ n₃)
    (N : ℕ) (m₀ : ℕ → VolN n₁ n₂ n₃) (h : HeapFrame N m₀ st) :
    HeapFrame N m₀
      (fix_over_under_segmentation_from_nuclei_heap st cellRef nucRef thrM thrS clip
        boundary ws).1 := by
  have hover := fix_over_segmentation_heap_frame st cellRef
    (find_potential_over_seg (numba_find_overlaps (st.mem cellRef) (st.mem nucRef)).nuc
      (volMax (st.mem nucRef) + 1) (volMax (st.mem cellRef) + 1)
      (numba_find_overlaps (st.mem cellRef) (st.mem nucRef)).inter thrM) none N m₀ h
  simp only [fix_over_under_segmentation_from_nuclei_heap]
  split
  · rename_i st' e heq
    rw [heq] at hover
    exact hover
  · rename_i st' ref₁ heq
    rw [heq] at hover
    rcases boundary with _ | r
    · simp only
      have h2 := halloc_frame st' (fun _ => 1) N m₀ hover
      exact fix_under_segmentation_heap_frame _ _ _ _ _ _ _ N m₀ h2.1
    · simp only
      exact fix_under_segmentation_heap_frame _ _ _ _ _ _ _ N m₀ hover

/-- C9 (confirmed).  In the heap transcription of the full pipeline — where
deep copies and `np.zeros_like`/`np.ones_like` allocate fresh references and
every subscript assignment writes the reference it targets — the final heap
agrees with the initial heap on every previously-allocated reference.  In
particular the caller's cell segmentation and the nuclei segmentation are
never written: both passes write only freshly allocated copies. -/
theorem c9_pipeline_mutates_neither_input_volume (n₁ n₂ n₃ : ℕ)
    (st : PyHeap n₁ n₂ n₃) (cellRef nucRef : ℕ) (thrM thrS : ℚ) (clip : ℚ × ℚ)
    (boundary : Option ℕ) (ws : WsOracleH n₁ n₂ n₃)
    (hc : cellRef < st.nextRef) (hn : nucRef < st.nextRef) :
    (fix_over_under_segmentation_from_nuclei_heap st cellRef nucRef thrM thrS clip
      boundary ws).1.mem cellRef = st.mem cellRef ∧
    (fix_over_under_segmentation_from_nuclei_heap st cellRef nucRef thrM thrS clip
      boundary ws).1.mem nucRef = st.mem nucRef := by
  have hframe := pipeline_heap_frame st cellRef nucRef thrM thrS clip boundary ws
    st.nextRef st.mem ⟨le_refl _, fun r _ => rfl⟩
  exact ⟨hframe.2 cellRef hc, hframe.2 nucRef hn⟩

/-- A concrete two-reference heap holding the C7 witness volumes. -/
def stW9 : PyHeap 2 1 1 :=
  { mem := fun r => if r = 0 then csW7 else if r = 1 then nsW7 else fun _ => 0
    nextRef := 2 }

/-- Witness for C9: the non-mutation statement applied to a concrete heap
whose references 0 and 1 hold the caller's two volumes. -/
theorem c9_pipeline_mutates_neither_input_volume_witness :
    ((0 : ℕ) < stW9.nextRef ∧ (1 : ℕ) < stW9.nextRef) ∧
    ((fix_over_under_segmentation_from_nuclei_heap stW9 0 1 (mkRat 33 100) (mkRat 66 100)
        (mkRat 3 10, mkRat 99 100) none (fun _ _ _ _ => 0)).1.mem 0 = stW9.mem 0 ∧
     (fix_over_under_segmentation_from_nuclei_heap stW9 0 1 (mkRat 33 100) (mkRat 66 100)
        (mkRat 3 10, mkRat 99 100) none (fun _ _ _ _ => 0)).1.mem 1 = stW9.mem 1) :=
  ⟨⟨by decide, by decide⟩,
   c9_pipeline_mutates_neither_input_volume 2 1 1 stW9 0 1 (mkRat 33 100) (mkRat 66 100)
     (mkRat 3 10, mkRat 99 100) none (fun _ _ _ _ => 0) (by decide) (by decide)⟩
